import Mathlib

set_option maxRecDepth 8000
set_option exponentiation.threshold 1100

/-!
Verification of the `random_grouping` crate (file `src/random_grouping.rs`,
together with `src/size_rounding.rs`) against its specification.

The development has three layers:

* an exact model of IEEE 754 binary64 (`F64`), built on exact rational
  arithmetic (`Q`), used for the ratio validation and the three
  ratio-to-size rounding policies;
* a shallow embedding of the `RandomGrouping` methods `divide_by_size`,
  `divide_slice_by_size`, `divide_by_ratio` and `divide_slice_by_ratio`,
  parameterised by an abstract random source (`RngModel`), mirroring the
  spec's treatment of the PRNG as an external capability: the contracts
  `SampleOk` / `SampleZero` / `ShuffleOk` state exactly the interface
  behaviour of `rand::seq::index::sample` and `slice::shuffle`;
* theorems settling the specification claims.

Collections are modelled as `List`s; a Rust panic is modelled as the value
`none` in the first component of the result (the second component is the
state of the random source, which is returned unchanged when the failure
happens before the source is used).
-/

/-- Fuel-based Euclidean gcd on naturals (structural recursion, so that both
the elaborator and the kernel can evaluate it on literals). -/
def gcdF : Nat → Nat → Nat → Nat
  | 0, _, b => b
  | fuel+1, a, b => if a = 0 then b else gcdF fuel (b % a) a

/-- Greatest common divisor, via `gcdF` with enough fuel. -/
def gcdNat (a b : Nat) : Nat := gcdF (a + 1) a b

/-- Fuel-based binary logarithm on naturals (structural recursion). -/
def log2fuel : Nat → Nat → Nat
  | 0, _ => 0
  | fuel+1, n => if 2 ≤ n then log2fuel fuel (n / 2) + 1 else 0

/-- Floor of the base-2 logarithm of a natural number. -/
def natLog2 (n : Nat) : Nat := log2fuel n n

/-- 2 ^ k as an integer (via the primitive `Nat.pow`, which the evaluators
handle directly on literals). -/
def zpow2 (k : Nat) : ℤ := Int.ofNat (2 ^ k)

/-- 2 ^ k as a natural number. -/
def npow2 (k : Nat) : Nat := 2 ^ k

/-- Exact rational numbers as numerator/denominator pairs kept in lowest terms
with a positive denominator; used to give exact meaning to f64 values.
(`Rat` itself is avoided only because its primitives do not reduce in the
elaborator; this type is evaluation-friendly.) -/
structure Q where
  n : ℤ
  d : ℕ
deriving DecidableEq

/-- Build a canonical `Q` from a numerator and a positive denominator. -/
def qmk (n : ℤ) (d : ℕ) : Q :=
  let g := gcdNat n.natAbs d
  ⟨n / (g : ℤ), d / g⟩

/-- The rational given by an integer. -/
def qofInt (z : ℤ) : Q := ⟨z, 1⟩

/-- Zero. -/
def qzero : Q := ⟨0, 1⟩

/-- One. -/
def qone : Q := ⟨1, 1⟩

/-- One half. -/
def qhalf : Q := ⟨1, 2⟩

/-- Exact rational addition. -/
def qadd (a b : Q) : Q := qmk (a.n * b.d + b.n * a.d) (a.d * b.d)

/-- Exact rational negation. -/
def qneg (a : Q) : Q := ⟨-a.n, a.d⟩

/-- Exact rational subtraction. -/
def qsub (a b : Q) : Q := qadd a (qneg b)

/-- Exact rational multiplication. -/
def qmul (a b : Q) : Q := qmk (a.n * b.n) (a.d * b.d)

/-- Exact rational division (the divisor must be nonzero). -/
def qdiv (a b : Q) : Q :=
  if b.n < 0 then qmk (-(a.n * b.d)) (a.d * b.n.natAbs)
  else qmk (a.n * b.d) (a.d * b.n.natAbs)

/-- Rational comparison, as a boolean. -/
def qle (a b : Q) : Bool := decide (a.n * b.d ≤ b.n * a.d)

/-- Strict rational comparison, as a boolean. -/
def qlt (a b : Q) : Bool := decide (a.n * b.d < b.n * a.d)

/-- Absolute value. -/
def qabs (a : Q) : Q := ⟨(a.n.natAbs : ℤ), a.d⟩

/-- Floor of a rational, as an integer. -/
def qfloorz (a : Q) : ℤ := Int.fdiv a.n a.d

/-- 2 ^ e as a rational, for an integer exponent. -/
def pow2q (e : ℤ) : Q := if 0 ≤ e then ⟨zpow2 e.toNat, 1⟩ else ⟨1, npow2 (-e).toNat⟩

/-- Round a rational to the nearest integer, ties to even. -/
def rne (x : Q) : ℤ :=
  let f := qsub x (qofInt (qfloorz x))
  if qlt f qhalf then qfloorz x
  else if qlt qhalf f then qfloorz x + 1
  else if qfloorz x % 2 = 0 then qfloorz x else qfloorz x + 1

/-- Round a rational to the nearest integer, ties away from zero
(the semantics of Rust `f64::round`). -/
def rha (x : Q) : ℤ :=
  if qle qzero x then qfloorz (qadd x qhalf)
  else -(qfloorz (qadd (qneg x) qhalf))

/-- Floor of the base-2 logarithm of a positive rational. -/
def ilog2q (a : Q) : ℤ :=
  let e0 : ℤ := (natLog2 a.n.toNat : ℤ) - (natLog2 a.d : ℤ)
  if qle (pow2q e0) a then (if qle (pow2q (e0 + 1)) a then e0 + 1 else e0) else e0 - 1

/-- IEEE 754 binary64 values: finite values carried as their exact rational
value, plus signed infinity and NaN. -/
inductive F64 where
  | num (q : Q)
  | inf (neg : Bool)
  | nan
deriving DecidableEq

/-- Round an exact rational to the nearest binary64 value (round to nearest,
ties to even, subnormals included, overflow to infinity). -/
def clip (q : Q) : F64 :=
  if q.n = 0 then F64.num qzero else
  let neg := q.n < 0
  let a := qabs q
  let e := ilog2q a
  let scale : ℤ := if -1022 ≤ e then e - 52 else -1074
  let m : ℤ := rne (qmul a (pow2q (-scale)))
  let r : Q := qmul (qofInt m) (pow2q scale)
  if qle (pow2q 1024) r then F64.inf neg
  else F64.num (if neg then qneg r else r)

/-- binary64 addition. -/
def F64.add : F64 → F64 → F64
  | F64.nan, _ => F64.nan
  | _, F64.nan => F64.nan
  | F64.inf s, F64.inf t => if s = t then F64.inf s else F64.nan
  | F64.inf s, F64.num _ => F64.inf s
  | F64.num _, F64.inf t => F64.inf t
  | F64.num a, F64.num b => clip (qadd a b)

/-- binary64 multiplication. -/
def F64.mul : F64 → F64 → F64
  | F64.nan, _ => F64.nan
  | _, F64.nan => F64.nan
  | F64.inf s, F64.inf t => F64.inf (s != t)
  | F64.inf s, F64.num b => if b.n = 0 then F64.nan else F64.inf (s != decide (b.n < 0))
  | F64.num a, F64.inf t => if a.n = 0 then F64.nan else F64.inf (decide (a.n < 0) != t)
  | F64.num a, F64.num b => clip (qmul a b)

/-- binary64 division. -/
def F64.fdiv : F64 → F64 → F64
  | F64.nan, _ => F64.nan
  | _, F64.nan => F64.nan
  | F64.inf _, F64.inf _ => F64.nan
  | F64.inf s, F64.num b => F64.inf (s != decide (b.n < 0))
  | F64.num _, F64.inf _ => F64.num qzero
  | F64.num a, F64.num b =>
    if b.n = 0 then (if a.n = 0 then F64.nan else F64.inf (decide (a.n < 0)))
    else clip (qdiv a b)

/-- binary64 comparison `x <= y` (false whenever NaN is involved). -/
def F64.fle : F64 → F64 → Bool
  | F64.nan, _ => false
  | _, F64.nan => false
  | F64.inf s, F64.inf t => s || !t
  | F64.inf s, F64.num _ => s
  | F64.num _, F64.inf t => !t
  | F64.num a, F64.num b => qle a b

/-- binary64 comparison `x < y` (false whenever NaN is involved). -/
def F64.flt : F64 → F64 → Bool
  | F64.nan, _ => false
  | _, F64.nan => false
  | F64.inf s, F64.inf t => s && !t
  | F64.inf s, F64.num _ => s
  | F64.num _, F64.inf t => !t
  | F64.num a, F64.num b => qlt a b

/-- binary64 comparison `x >= y`. -/
def F64.fge (x y : F64) : Bool := F64.fle y x

/-- binary64 comparison `x > y`. -/
def F64.fgt (x y : F64) : Bool := F64.flt y x

/-- Rust `f64::is_nan`. -/
def F64.isNan : F64 → Bool
  | F64.nan => true
  | _ => false

/-- Rust `f64::is_finite`. -/
def F64.isFinite : F64 → Bool
  | F64.num _ => true
  | _ => false

/-- Rust `f64::floor` (exact: the result is always representable). -/
def F64.ffloor : F64 → F64
  | F64.num q => F64.num (qofInt (qfloorz q))
  | x => x

/-- Rust `f64::round`, rounding ties away from zero (exact). -/
def F64.fround : F64 → F64
  | F64.num q => F64.num (qofInt (rha q))
  | x => x

/-- Rust `as usize` cast from f64 on a 64-bit target: truncate toward zero,
saturate at the bounds, NaN to 0. -/
def F64.toUsize : F64 → Nat
  | F64.nan => 0
  | F64.inf s => if s then 0 else npow2 64 - 1
  | F64.num q => if q.n < 0 then 0 else min (qfloorz q).toNat (npow2 64 - 1)

/-- Rust `len as f64` conversion (round to nearest, ties to even). -/
def usizeToF64 (len : Nat) : F64 := clip ⟨(len : ℤ), 1⟩

/-- A Rust f64 literal with exact decimal value `n / d`. -/
def F64.lit (n : ℤ) (d : ℕ) : F64 := clip (qmk n d)

/-- Rust `ratios.iter().sum::<f64>()`: left fold of f64 addition from 0.0. -/
def fsum (l : List F64) : F64 := l.foldl F64.add (F64.num qzero)

/-!  The size-rounding policies (`src/size_rounding.rs` and the private
helpers `floor`, `tail`, `each` inside `RandomGrouping::ratios_to_sizes`
in `src/random_grouping.rs`). -/

/-- `SizeRounding` from `src/size_rounding.rs`. -/
inductive SizeRounding where
  | Floor
  | Tail
  | Each
deriving DecidableEq

/-- `simple_scan`'s `trace(init, f)`: the stream of accumulated states
(one per input element, the initial state is not emitted). -/
def traceL (f : β → α → β) : β → List α → List β
  | _, [] => []
  | s, x :: xs => f s x :: traceL f (f s x) xs

/-- `simple_scan`'s `diff(init, f)`: `f` applied to each element and its
predecessor (the first element is paired with `init`). -/
def diffL (f : α → α → β) : α → List α → List β
  | _, [] => []
  | p, x :: xs => f x p :: diffL f x xs

/-- `simple_scan`'s `trace2(init, f)`: consecutive pairs of accumulated
states, i.e. `(state before the element, state after the element)`. -/
def trace2 (f : β → α → β) : β → List α → List (β × β)
  | _, [] => []
  | s, x :: xs => (s, f s x) :: trace2 f (f s x) xs

/-- The nested function `floor` of `RandomGrouping::ratios_to_sizes`:
`size[i] = (ratios[i] * len as f64).floor() as usize`. -/
def floorSizes (ratios : List F64) (len : Nat) : List Nat :=
  ratios.map (fun x => F64.toUsize (F64.ffloor (F64.mul x (usizeToF64 len))))

/-- The nested function `tail` of `RandomGrouping::ratios_to_sizes`:
round each ratio's size individually, then accumulate the rounded sizes
with clamping at `len`, and return successive differences. -/
def tailSizes (ratios : List F64) (len : Nat) : List Nat :=
  let sizes := ratios.map (fun x => F64.toUsize (F64.fround (F64.mul x (usizeToF64 len))))
  let points := traceL (fun s x => min (s + x) len) 0 sizes
  diffL (fun c p => c - p) 0 points

/-- The nested function `each` of `RandomGrouping::ratios_to_sizes`:
accumulate the ratios in f64, round each cumulative point, and return
successive differences. -/
def eachSizes (ratios : List F64) (len : Nat) : List Nat :=
  let points := traceL (fun s x => F64.add s x) (F64.num qzero) ratios
  let points2 := points.map (fun x => F64.toUsize (F64.fround (F64.mul x (usizeToF64 len))))
  diffL (fun c p => c - p) 0 points2

/-- `RandomGrouping::ratios_to_sizes` (the rounding strategy is the value of
the `rounding` field of the receiver). -/
def ratios_to_sizes (rounding : SizeRounding) (ratios : List F64) (len : Nat) : List Nat :=
  match rounding with
  | SizeRounding.Floor => floorSizes ratios len
  | SizeRounding.Tail => tailSizes ratios len
  | SizeRounding.Each => eachSizes ratios len

/-- `RandomGrouping::check_ratio`:
`!x.is_nan() && *x >= 0.0 && x.is_finite()`. -/
def check_ratio (x : F64) : Bool :=
  !(F64.isNan x) && F64.fge x (F64.num qzero) && F64.isFinite x

/-- The Tail formula as the spec words it: boundary points
`b[i] = round((Σ_{j≤i} ratios[j]) * n)` clamped to `n`, sizes are the
successive differences.  This definition follows the spec's sentence (it
rounds the cumulative ratio sums); it is compared against the code's
`tailSizes`. -/
def tail_spec_cumulative (ratios : List F64) (len : Nat) : List Nat :=
  let points := traceL (fun s x => F64.add s x) (F64.num qzero) ratios
  let points2 := points.map
    (fun x => min (F64.toUsize (F64.fround (F64.mul x (usizeToF64 len)))) len)
  diffL (fun c p => c - p) 0 points2

/-- The amended Tail description: boundary points
`p[i] = min(p[i-1] + round(ratios[i] * n), n)` with `p[-1] = 0` (each ratio
is rounded individually and the rounded sizes are accumulated with clamping
at `n`); sizes are the successive differences. -/
def tail_amended (len : Nat) : Nat → List F64 → List Nat
  | _, [] => []
  | prev, r :: rs =>
    let p := min (prev + F64.toUsize (F64.fround (F64.mul r (usizeToF64 len)))) len
    (p - prev) :: tail_amended len p rs

/-- The f64 value of the Rust expression `1.0 / 4.0`. -/
def ratioQuarter : F64 := F64.fdiv (F64.lit 1 1) (F64.lit 4 1)

/-- The f64 value of the Rust expression `1.0 / 3.0`. -/
def ratioThird : F64 := F64.fdiv (F64.lit 1 1) (F64.lit 3 1)

/-!  The abstract random source.  The crate consumes the PRNG only through
`rand::seq::index::sample` (draw `k` distinct indices below `n`) and
`slice::shuffle`; the spec treats the PRNG as an external capability with
exactly this interface, so it is modelled as an abstract state type with
these two operations, and the interface contracts are stated as
propositions used as hypotheses. -/

/-- An abstract random source with state type `σ`: `sample s n k` draws `k`
distinct indices below `n` (as `rand::seq::index::sample`), `shuffle`
permutes a list in place (as `slice::shuffle`); both return the advanced
state. -/
structure RngModel (σ : Type) : Type 1 where
  sample : σ → Nat → Nat → List Nat × σ
  shuffle : {α : Type} → σ → List α → List α × σ

/-- Interface contract of `rand::seq::index::sample`: for `k ≤ n` it returns
`k` pairwise-distinct indices below `n`. -/
def SampleOk {σ : Type} (m : RngModel σ) : Prop :=
  ∀ (s : σ) (n k : Nat), k ≤ n →
    (m.sample s n k).1.length = k ∧ (m.sample s n k).1.Nodup ∧
      ∀ i ∈ (m.sample s n k).1, i < n

/-- Interface contract of `rand::seq::index::sample` for zero requested
elements: nothing is drawn and the source state is untouched. -/
def SampleZero {σ : Type} (m : RngModel σ) : Prop :=
  ∀ (s : σ) (n : Nat), m.sample s n 0 = ([], s)

/-- Interface contract of `slice::shuffle`: the result is a permutation of
the input. -/
def ShuffleOk {σ : Type} (m : RngModel σ) : Prop :=
  ∀ (α : Type) (s : σ) (l : List α), List.Perm (m.shuffle s l).1 l

/-!  The embedding of `RandomGrouping::divide_by_size` (the iterator /
`BTreeMap` path, `src/random_grouping.rs` lines 118-163). -/

/-- The pairs `(lower, upper)` produced by
`sizes.iter().cloned().trace2(0, |total, size| total + size)`:
consecutive partial sums of `sizes`. -/
def group_ranges (sizes : List Nat) : List (Nat × Nat) :=
  trace2 (fun total size => total + size) 0 sizes

/-- One `BTreeMap::insert` on a key-sorted association list. -/
def insertBT (k v : Nat) : List (Nat × Nat) → List (Nat × Nat)
  | [] => [(k, v)]
  | (k1, v1) :: rest =>
    if k < k1 then (k, v) :: (k1, v1) :: rest
    else if k = k1 then (k, v) :: rest
    else (k1, v1) :: insertBT k v rest

/-- The `BTreeMap` build loop of `divide_by_size`:
for each `(group_idx, group_range)` in `group_ranges.enumerate()`,
insert `group_item_idx -> group_idx` for every index of the chunk
`idxs[group_range]`. -/
def buildTable (idxs : List Nat) (ranges : List (Nat × Nat)) : List (Nat × Nat) :=
  ranges.enum.foldl
    (fun t gr => ((idxs.drop gr.2.1).take (gr.2.2 - gr.2.1)).foldl
      (fun t i => insertBT i gr.1 t) t)
    []

/-- Push `x` onto the group at position `i` (Rust `results[group_idx].push`;
the index is always in bounds when this is reached). -/
def pushAt (i : Nat) (x : α) : List (List α) → List (List α)
  | [] => []
  | g :: gs =>
    match i with
    | 0 => (g ++ [x]) :: gs
    | i+1 => g :: pushAt i x gs

/-- The single forward pass of `divide_by_size`: for each `(idx, group_idx)`
of the `BTreeMap` (in ascending key order), advance the samples iterator by
`idx - prev_idx` positions with `nth` and push the element reached onto its
group; `none` models the `unwrap` panic of an exhausted iterator. -/
def walkTable (prev : Int) (results : List (List α)) :
    List α → List (Nat × Nat) → Option (List (List α))
  | _, [] => some results
  | rem, (idx, gidx) :: rest =>
    let progress := ((idx : Int) - prev).toNat
    match rem.drop (progress - 1) with
    | [] => none
    | x :: rem1 => walkTable (idx : Int) (pushAt gidx x results) rem1 rest

/-- The final loop of `divide_by_size` when `stable` is false: shuffle each
group in order, threading the random source. -/
def shuffleGroups {σ : Type} (m : RngModel σ) (s : σ) : List (List α) → List (List α) × σ
  | [] => ([], s)
  | g :: gs =>
    let p := m.shuffle s g
    let rest := shuffleGroups m p.2 gs
    (p.1 :: rest.1, rest.2)

/-- `RandomGrouping::divide_by_size` (`src/random_grouping.rs` lines
118-163).  The samples iterator is a list; `size_hint().1.unwrap()` is its
length.  The first component is `none` exactly when the Rust code panics;
the second component is the state of the random source afterwards. -/
def divide_by_size {σ : Type} (m : RngModel σ) (stable : Bool)
    (samples : List α) (sizes : List Nat) (s : σ) :
    Option (List (List α)) × σ :=
  if samples.length < sizes.sum then (none, s)
  else
    let pr := m.sample s samples.length sizes.sum
    let table := buildTable pr.1 (group_ranges sizes)
    let results0 : List (List α) := sizes.map (fun _ => [])
    match walkTable (-1) results0 samples table with
    | none => (none, pr.2)
    | some results =>
      if stable then (some results, pr.2)
      else
        let p := shuffleGroups m pr.2 results
        (some p.1, p.2)

/-!  The embedding of `RandomGrouping::divide_slice_by_size` (the slice
path, `src/random_grouping.rs` lines 214-253). -/

/-- The nested function `sort_if` of `divide_slice_by_size`: sort the chunk
of sampled indices in ascending order when `flag` is set (`slice::sort`). -/
def sort_if (flag : Bool) (l : List Nat) : List Nat :=
  if flag then l.insertionSort (· ≤ ·) else l

/-- The nested function `from_idxs` of `divide_slice_by_size`: collect the
elements of `slice` at the given indices; `none` models the panic of an
out-of-range indexing. -/
def from_idxs (slice : List α) : List Nat → Option (List α)
  | [] => some []
  | i :: is =>
    match slice[i]? with
    | none => none
    | some x =>
      match from_idxs slice is with
      | none => none
      | some r => some (x :: r)

/-- The group-building loop of `divide_slice_by_size`: for every
`(lower, upper)` range, slice the chunk `idxs[lower..upper]`, sort it when
`stable` is set, and collect the referenced elements. -/
def sliceGroupsLoop (samples : List α) (stable : Bool) (idxs : List Nat) :
    List (Nat × Nat) → Option (List (List α))
  | [] => some []
  | r :: rs =>
    let chunk := (idxs.drop r.1).take (r.2 - r.1)
    match from_idxs samples (sort_if stable chunk) with
    | none => none
    | some g =>
      match sliceGroupsLoop samples stable idxs rs with
      | none => none
      | some gs => some (g :: gs)

/-- `RandomGrouping::divide_slice_by_size` (`src/random_grouping.rs` lines
214-253). -/
def divide_slice_by_size {σ : Type} (m : RngModel σ) (stable : Bool)
    (samples : List α) (sizes : List Nat) (s : σ) :
    Option (List (List α)) × σ :=
  if samples.length < sizes.sum then (none, s)
  else
    let pr := m.sample s samples.length sizes.sum
    match sliceGroupsLoop samples stable pr.1 (group_ranges sizes) with
    | none => (none, pr.2)
    | some gs => (some gs, pr.2)

/-- `RandomGrouping::divide_by_ratio` (`src/random_grouping.rs` lines
181-198): validate the ratios, resolve them to sizes with the configured
rounding strategy, then delegate to `divide_by_size`. -/
def divide_by_ratio {σ : Type} (m : RngModel σ) (stable : Bool)
    (rounding : SizeRounding) (samples : List α) (ratios : List F64) (s : σ) :
    Option (List (List α)) × σ :=
  if !(ratios.all check_ratio) then (none, s)
  else if F64.fgt (fsum ratios) (F64.num qone) then (none, s)
  else divide_by_size m stable samples (ratios_to_sizes rounding ratios samples.length) s

/-- `RandomGrouping::divide_slice_by_ratio` (`src/random_grouping.rs` lines
275-290): validate the ratios, resolve them to sizes, then delegate to
`divide_by_size` (not to `divide_slice_by_size`). -/
def divide_slice_by_ratio {σ : Type} (m : RngModel σ) (stable : Bool)
    (rounding : SizeRounding) (samples : List α) (ratios : List F64) (s : σ) :
    Option (List (List α)) × σ :=
  if !(ratios.all check_ratio) then (none, s)
  else if F64.fgt (fsum ratios) (F64.num qone) then (none, s)
  else divide_by_size m stable samples (ratios_to_sizes rounding ratios samples.length) s

/-!  The `RandomGrouping` session object and its call-level semantics. -/

/-- The `RandomGrouping` struct: the stability flag, the rounding strategy
and the state of the (owned or borrowed) random source. -/
structure RandomGrouping (σ : Type) where
  stable : Bool
  rounding : SizeRounding
  rng : σ

/-- `impl Default for RandomGrouping` (`src/random_grouping.rs` lines
326-334): `stable = true`, `rounding = Floor`, rng seeded from 0.
`mkRng seed` stands for `Pcg32::seed_from_u64(seed)`, the deterministic
seeding function of the external PRNG. -/
def RandomGrouping.default {σ : Type} (mkRng : Nat → σ) : RandomGrouping σ :=
  ⟨true, SizeRounding.Floor, mkRng 0⟩

/-- `RandomGrouping::new`: `Self::default()`. -/
def RandomGrouping.new {σ : Type} (mkRng : Nat → σ) : RandomGrouping σ :=
  RandomGrouping.default mkRng

/-- `RandomGrouping::from_seed`: the default configuration with the random
source seeded from the given seed. -/
def RandomGrouping.from_seed {σ : Type} (mkRng : Nat → σ) (seed : Nat) : RandomGrouping σ :=
  ⟨true, SizeRounding.Floor, mkRng seed⟩

/-- One partition call, with its arguments. -/
inductive Call (α : Type) where
  | bySize (samples : List α) (sizes : List Nat)
  | bySliceSize (samples : List α) (sizes : List Nat)
  | byRatio (samples : List α) (ratios : List F64)
  | bySliceRatio (samples : List α) (ratios : List F64)

/-- Execute one call on a session: the configuration is read from the
session, the random source state is threaded through.  A panicking call
(first component `none`) leaves the random source in the state the
algorithm left it in; for the validation failures this is the unchanged
input state. -/
def step {σ : Type} (m : RngModel σ) (rg : RandomGrouping σ) :
    Call α → Option (List (List α)) × RandomGrouping σ
  | Call.bySize samples sizes =>
    let p := divide_by_size m rg.stable samples sizes rg.rng
    (p.1, ⟨rg.stable, rg.rounding, p.2⟩)
  | Call.bySliceSize samples sizes =>
    let p := divide_slice_by_size m rg.stable samples sizes rg.rng
    (p.1, ⟨rg.stable, rg.rounding, p.2⟩)
  | Call.byRatio samples ratios =>
    let p := divide_by_ratio m rg.stable rg.rounding samples ratios rg.rng
    (p.1, ⟨rg.stable, rg.rounding, p.2⟩)
  | Call.bySliceRatio samples ratios =>
    let p := divide_slice_by_ratio m rg.stable rg.rounding samples ratios rg.rng
    (p.1, ⟨rg.stable, rg.rounding, p.2⟩)

/-- Execute a sequence of calls on a session, collecting each call's
result. -/
def runCalls {σ : Type} (m : RngModel σ) (rg : RandomGrouping σ) :
    List (Call α) → List (Option (List (List α)))
  | [] => []
  | c :: cs =>
    let p := step m rg c
    p.1 :: runCalls m p.2 cs

/-- A concrete random source used to witness the theorems: sampling returns
the first `k` indices in order and shuffling is the identity; both leave
the state unchanged.  It satisfies all three interface contracts. -/
def listRng : RngModel Unit :=
  ⟨fun s _ k => (List.range k, s), fun {_} s l => (l, s)⟩

/-!  Reference descriptions of the group contents, used to characterise both
partitioning paths: the sampled index buffer is cut into consecutive chunks
of the requested sizes, each chunk is (possibly) sorted, and the chunk's
indices are looked up in the input. -/

/-- Cut a list into consecutive chunks of the given sizes. -/
def splitSizes : List Nat → List α → List (List α)
  | [], _ => []
  | s :: ss, l => l.take s :: splitSizes ss (l.drop s)

/-- The groups produced in order-stable mode: each chunk of the sampled
index buffer, sorted ascending, looked up in the input. -/
def stableGroups (samples : List α) (sizes : List Nat) (idxs : List Nat) :
    List (List α) :=
  (splitSizes sizes idxs).map
    (fun c => (c.insertionSort (· ≤ ·)).filterMap (fun j => samples[j]?))

/-- The groups produced by the slice path in non-stable mode: each chunk of
the sampled index buffer, in sampled order, looked up in the input. -/
def plainGroups (samples : List α) (sizes : List Nat) (idxs : List Nat) :
    List (List α) :=
  (splitSizes sizes idxs).map (fun c => c.filterMap (fun j => samples[j]?))

/-- The key/value pairs inserted into the lookup table: the indices of each
chunk, tagged with their group's position (starting at `g`). -/
def pairsFrom (g : Nat) : List (List Nat) → List (Nat × Nat)
  | [] => []
  | c :: cs => c.map (fun k => (k, g)) ++ pairsFrom (g + 1) cs

/-- A table whose keys are strictly increasing. -/
def KSorted (t : List (Nat × Nat)) : Prop :=
  t.Pairwise (fun p q => p.1 < q.1)

theorem splitSizes_length (sizes : List Nat) (l : List α) :
    (splitSizes sizes l).length = sizes.length := by
  induction sizes generalizing l with
  | nil => rfl
  | cons s ss ih => simp [splitSizes, ih]

theorem splitSizes_map_length (sizes : List Nat) (l : List α)
    (h : sizes.sum ≤ l.length) :
    (splitSizes sizes l).map List.length = sizes := by
  induction sizes generalizing l with
  | nil => rfl
  | cons s ss ih =>
    simp only [List.sum_cons] at h
    have h1 : s ≤ l.length := le_trans (Nat.le_add_right s ss.sum) h
    have h2 : ss.sum ≤ (l.drop s).length := by
      simp only [List.length_drop]; omega
    simp [splitSizes, List.length_take, Nat.min_eq_left h1, ih _ h2]

theorem splitSizes_flatten (sizes : List Nat) (l : List α) :
    (splitSizes sizes l).flatten = l.take sizes.sum := by
  induction sizes generalizing l with
  | nil => simp [splitSizes]
  | cons s ss ih =>
    simp [splitSizes, ih, List.sum_cons, List.take_add]

theorem splitSizes_sublist (sizes : List Nat) (l : List α) :
    ∀ c ∈ splitSizes sizes l, List.Sublist c l := by
  induction sizes generalizing l with
  | nil => intro c hc; simp [splitSizes] at hc
  | cons s ss ih =>
    intro c hc
    simp only [splitSizes, List.mem_cons] at hc
    rcases hc with rfl | hc
    · exact List.take_sublist s l
    · exact (ih (l.drop s) c hc).trans (List.drop_sublist s l)

theorem splitSizes_nil_right (sizes : List Nat) :
    splitSizes sizes ([] : List α) = sizes.map (fun _ => []) := by
  induction sizes with
  | nil => rfl
  | cons s ss ih => simp [splitSizes, ih]

theorem trace2_chunks (sizes : List Nat) (idxs : List Nat) (t : Nat) :
    (trace2 (fun total size => total + size) t sizes).map
        (fun r => (idxs.drop r.1).take (r.2 - r.1))
      = splitSizes sizes (idxs.drop t) := by
  induction sizes generalizing t with
  | nil => rfl
  | cons s ss ih =>
    simp only [trace2, List.map_cons, splitSizes, Nat.add_sub_cancel_left]
    refine congrArg₂ _ rfl ?_
    rw [ih (t + s), List.drop_drop]

theorem from_idxs_eq (samples : List α) (l : List Nat)
    (h : ∀ j ∈ l, j < samples.length) :
    from_idxs samples l = some (l.filterMap (fun j => samples[j]?)) := by
  induction l with
  | nil => rfl
  | cons i is ih =>
    have hi : i < samples.length := h i (List.mem_cons_self i is)
    have he : samples[i]? = some samples[i] := List.getElem?_eq_getElem hi
    simp [from_idxs, he, ih (fun j hj => h j (List.mem_cons_of_mem _ hj)),
      List.filterMap_cons]

theorem filterMap_getElem_length (samples : List α) (l : List Nat)
    (h : ∀ j ∈ l, j < samples.length) :
    (l.filterMap (fun j => samples[j]?)).length = l.length := by
  induction l with
  | nil => rfl
  | cons i is ih =>
    have hi : i < samples.length := h i (List.mem_cons_self i is)
    have he : samples[i]? = some samples[i] := List.getElem?_eq_getElem hi
    simp [List.filterMap_cons, he, ih (fun j hj => h j (List.mem_cons_of_mem _ hj))]

theorem map_getD_eq_filterMap (samples : List α) (d : α) (l : List Nat)
    (h : ∀ j ∈ l, j < samples.length) :
    l.map (fun j => samples.getD j d) = l.filterMap (fun j => samples[j]?) := by
  induction l with
  | nil => rfl
  | cons i is ih =>
    have hi : i < samples.length := h i (List.mem_cons_self i is)
    rw [List.map_cons, List.filterMap_cons,
      ih (fun j hj => h j (List.mem_cons_of_mem _ hj)),
      List.getElem?_eq_getElem hi, List.getD_eq_getElem samples d hi]

theorem filterMap_getElem_range (l : List α) :
    (List.range l.length).filterMap (fun j => l[j]?) = l := by
  induction l with
  | nil => rfl
  | cons a t ih =>
    rw [List.length_cons, List.range_succ_eq_map, List.filterMap_cons,
      List.filterMap_map]
    have h0 : (a :: t)[0]? = some a := by simp
    have hc : (fun j => (a :: t)[j]?) ∘ (· + 1) = fun j => t[j]? := by
      funext j; simp
    rw [h0, hc, ih]

theorem filterMap_getElem_subperm (samples : List α) (idxs : List Nat)
    (hnd : idxs.Nodup) (hbd : ∀ i ∈ idxs, i < samples.length) :
    List.Subperm (idxs.filterMap (fun j => samples[j]?)) samples := by
  obtain ⟨mid, hperm, hsub⟩ :=
    List.Nodup.subperm hnd (fun i hi => List.mem_range.mpr (hbd i hi))
  refine ⟨mid.filterMap (fun j => samples[j]?), hperm.filterMap _, ?_⟩
  have := hsub.filterMap (fun j => samples[j]?)
  rwa [filterMap_getElem_range samples] at this

theorem pairwise_lt_of_le_nodup {l : List Nat}
    (hs : l.Pairwise (· ≤ ·)) (hn : l.Nodup) :
    l.Pairwise (· < ·) :=
  (hs.and hn).imp (fun h => lt_of_le_of_ne h.1 h.2)

theorem flatten_map_perm (L : List (List Nat)) (F G : List Nat → List α)
    (h : ∀ c ∈ L, List.Perm (F c) (G c)) :
    List.Perm (L.map F).flatten (L.map G).flatten := by
  induction L with
  | nil => exact List.Perm.refl _
  | cons c cs ih =>
    simp only [List.map_cons, List.flatten_cons]
    exact (h c (List.mem_cons_self c cs)).append
      (ih (fun x hx => h x (List.mem_cons_of_mem _ hx)))

theorem filterMap_flatten_eq (L : List (List Nat)) (f : Nat → Option α) :
    (L.map (fun c => c.filterMap f)).flatten = L.flatten.filterMap f := by
  induction L with
  | nil => rfl
  | cons c cs ih =>
    simp only [List.map_cons, List.flatten_cons, List.filterMap_append, ih]

theorem mem_insertBT {k v : Nat} {t : List (Nat × Nat)} :
    ∀ p ∈ insertBT k v t, p = (k, v) ∨ p ∈ t := by
  induction t with
  | nil =>
    intro p hp
    simp only [insertBT, List.mem_singleton] at hp
    exact Or.inl hp
  | cons q rest ih =>
    rcases q with ⟨k1, v1⟩
    intro p hp
    simp only [insertBT] at hp
    split_ifs at hp with h1 h2
    · rcases List.mem_cons.mp hp with rfl | hp
      · exact Or.inl rfl
      · exact Or.inr hp
    · rcases List.mem_cons.mp hp with rfl | hp
      · exact Or.inl rfl
      · exact Or.inr (List.mem_cons_of_mem _ hp)
    · rcases List.mem_cons.mp hp with rfl | hp
      · exact Or.inr (List.mem_cons_self _ _)
      · rcases ih p hp with h | h
        · exact Or.inl h
        · exact Or.inr (List.mem_cons_of_mem _ h)

theorem insertBT_sorted {k v : Nat} {t : List (Nat × Nat)} (h : KSorted t) :
    KSorted (insertBT k v t) := by
  induction t with
  | nil =>
    simp only [insertBT, KSorted]
    exact List.pairwise_singleton _ _
  | cons q rest ih =>
    rcases q with ⟨k1, v1⟩
    rcases List.pairwise_cons.mp h with ⟨h1, h2⟩
    simp only [insertBT]
    split_ifs with ha hb
    · refine List.pairwise_cons.mpr ⟨?_, h⟩
      intro p hp
      rcases List.mem_cons.mp hp with rfl | hp
      · exact ha
      · exact lt_trans ha (h1 p hp)
    · refine List.pairwise_cons.mpr ⟨?_, h2⟩
      intro p hp
      exact hb ▸ h1 p hp
    · refine List.pairwise_cons.mpr ⟨?_, ih h2⟩
      intro p hp
      rcases mem_insertBT p hp with rfl | hp
      · exact lt_of_le_of_ne (le_of_not_lt ha) (fun he => hb he.symm)
      · exact h1 p hp

theorem insertBT_perm_fresh {k v : Nat} {t : List (Nat × Nat)}
    (h : ∀ p ∈ t, p.1 ≠ k) :
    List.Perm (insertBT k v t) ((k, v) :: t) := by
  induction t with
  | nil => exact List.Perm.refl _
  | cons q rest ih =>
    rcases q with ⟨k1, v1⟩
    simp only [insertBT]
    split_ifs with ha hb
    · exact List.Perm.refl _
    · exact absurd hb.symm (h (k1, v1) (List.mem_cons_self _ _))
    · refine List.Perm.trans (List.Perm.cons _ ?_) (List.Perm.swap _ _ _)
      exact ih (fun p hp => h p (List.mem_cons_of_mem _ hp))

theorem foldl_insertBT (pairs : List (Nat × Nat)) :
    ∀ (t : List (Nat × Nat)), KSorted t →
      (pairs.map Prod.fst ++ t.map Prod.fst).Nodup →
      KSorted (pairs.foldl (fun t p => insertBT p.1 p.2 t) t) ∧
        List.Perm (pairs.foldl (fun t p => insertBT p.1 p.2 t) t) (pairs ++ t) := by
  induction pairs with
  | nil =>
    intro t hs _
    exact ⟨hs, List.Perm.refl _⟩
  | cons p ps ih =>
    intro t hs hnd
    have hnd0 : (p.1 :: (ps.map Prod.fst ++ t.map Prod.fst)).Nodup := by
      simpa using hnd
    have hfresh : ∀ q ∈ t, q.1 ≠ p.1 := by
      intro q hq he
      have : p.1 ∈ ps.map Prod.fst ++ t.map Prod.fst :=
        List.mem_append_right _ (he ▸ List.mem_map_of_mem Prod.fst hq)
      exact (List.nodup_cons.mp hnd0).1 this
    have hperm1 : List.Perm (insertBT p.1 p.2 t) (p :: t) := insertBT_perm_fresh hfresh
    have hsort1 : KSorted (insertBT p.1 p.2 t) := insertBT_sorted hs
    have hnd1 : (ps.map Prod.fst ++ (insertBT p.1 p.2 t).map Prod.fst).Nodup := by
      have hp1 : List.Perm ((insertBT p.1 p.2 t).map Prod.fst) (p.1 :: t.map Prod.fst) :=
        hperm1.map Prod.fst
      have hp2 : List.Perm (ps.map Prod.fst ++ (insertBT p.1 p.2 t).map Prod.fst)
          (p.1 :: (ps.map Prod.fst ++ t.map Prod.fst)) :=
        List.Perm.trans (List.Perm.append_left _ hp1) (List.perm_middle)
      exact hp2.nodup_iff.mpr hnd0
    obtain ⟨hs2, hp2⟩ := ih (insertBT p.1 p.2 t) hsort1 hnd1
    refine ⟨hs2, List.Perm.trans hp2 ?_⟩
    exact List.Perm.trans (List.Perm.append_left ps hperm1) List.perm_middle

theorem pairsFrom_map_fst (chunks : List (List Nat)) :
    ∀ g, (pairsFrom g chunks).map Prod.fst = chunks.flatten := by
  induction chunks with
  | nil => intro g; rfl
  | cons c cs ih =>
    intro g
    rw [pairsFrom, List.map_append, ih (g + 1), List.map_map, List.flatten_cons]
    refine congrArg₂ _ ?_ rfl
    have hc : (Prod.fst ∘ fun k => ((k, g) : Nat × Nat)) = fun k => k := rfl
    rw [hc, List.map_id']

theorem pairsFrom_snd_lt (chunks : List (List Nat)) :
    ∀ g p, p ∈ pairsFrom g chunks → g ≤ p.2 ∧ p.2 < g + chunks.length := by
  induction chunks with
  | nil => intro g p hp; simp [pairsFrom] at hp
  | cons c cs ih =>
    intro g p hp
    rcases List.mem_append.mp hp with hp | hp
    · obtain ⟨k, _, rfl⟩ := List.mem_map.mp hp
      simp
    · obtain ⟨h1, h2⟩ := ih (g + 1) p hp
      simp only [List.length_cons]
      omega

theorem pairsFrom_filter_lt (chunks : List (List Nat)) :
    ∀ g i, i < g → (pairsFrom g chunks).filter (fun p => p.2 == i) = [] := by
  induction chunks with
  | nil => intro g i _; rfl
  | cons c cs ih =>
    intro g i hi
    simp only [pairsFrom, List.filter_append, ih (g + 1) i (by omega), List.append_nil]
    rw [List.filter_eq_nil_iff]
    intro p hp
    obtain ⟨k, _, rfl⟩ := List.mem_map.mp hp
    simp only [beq_iff_eq]
    omega

theorem pairsFrom_filter_eq (chunks : List (List Nat)) :
    ∀ g i, g ≤ i → i - g < chunks.length →
      (pairsFrom g chunks).filter (fun p => p.2 == i)
        = (chunks.getD (i - g) []).map (fun k => (k, i)) := by
  induction chunks with
  | nil => intro g i _ h; simp at h
  | cons c cs ih =>
    intro g i hge hlt
    simp only [pairsFrom, List.filter_append]
    by_cases he : i = g
    · subst he
      have h1 : (List.map (fun k => (k, i)) c).filter (fun p => p.2 == i)
          = c.map (fun k => (k, i)) := by
        rw [List.filter_eq_self]
        intro p hp
        obtain ⟨k, _, rfl⟩ := List.mem_map.mp hp
        simp
      rw [h1, pairsFrom_filter_lt cs (i + 1) i (by omega)]
      simp
    · have hgi : g < i := lt_of_le_of_ne hge (fun h => he h.symm)
      have h1 : (List.map (fun k => (k, g)) c).filter (fun p => p.2 == i) = [] := by
        rw [List.filter_eq_nil_iff]
        intro p hp
        obtain ⟨k, _, rfl⟩ := List.mem_map.mp hp
        simp only [beq_iff_eq]
        omega
      rw [h1, List.nil_append, ih (g + 1) i (by omega)
        (by simp only [List.length_cons] at hlt; omega)]
      have : i - (g + 1) + 1 = i - g := by omega
      rw [← this]
      rfl

theorem snd_const_map_fst {i : Nat} :
    ∀ {t : List (Nat × Nat)}, (∀ p ∈ t, p.2 = i) →
      t = (t.map Prod.fst).map (fun k => (k, i)) := by
  intro t
  induction t with
  | nil => intro _; rfl
  | cons p ps ih =>
    intro h
    have hp : p.2 = i := h p (List.mem_cons_self _ _)
    simp only [List.map_cons]
    refine congrArg₂ _ ?_ (ih (fun q hq => h q (List.mem_cons_of_mem _ hq)))
    rcases p with ⟨a, b⟩
    simp only at hp
    rw [hp]

theorem foldl_chunk_insert (c : List Nat) (g : Nat) (t : List (Nat × Nat)) :
    c.foldl (fun t i => insertBT i g t) t
      = (c.map (fun k => (k, g))).foldl (fun t p => insertBT p.1 p.2 t) t := by
  rw [List.foldl_map]

theorem buildTable_go (ranges : List (Nat × Nat)) (idxs : List Nat) :
    ∀ (g0 : Nat) (t : List (Nat × Nat)),
      (List.enumFrom g0 ranges).foldl
          (fun t gr => ((idxs.drop gr.2.1).take (gr.2.2 - gr.2.1)).foldl
            (fun t i => insertBT i gr.1 t) t) t
        = (pairsFrom g0 (ranges.map (fun r => (idxs.drop r.1).take (r.2 - r.1)))).foldl
            (fun t p => insertBT p.1 p.2 t) t := by
  induction ranges with
  | nil => intro g0 t; rfl
  | cons r rs ih =>
    intro g0 t
    simp only [List.enumFrom, List.foldl_cons, List.map_cons, pairsFrom,
      List.foldl_append]
    rw [foldl_chunk_insert, ih (g0 + 1)]

theorem buildTable_eq (idxs : List Nat) (sizes : List Nat) :
    buildTable idxs (group_ranges sizes)
      = (pairsFrom 0 (splitSizes sizes idxs)).foldl
          (fun t p => insertBT p.1 p.2 t) [] := by
  have h1 : (group_ranges sizes).enum = List.enumFrom 0 (group_ranges sizes) := rfl
  have h2 : (group_ranges sizes).map (fun r => (idxs.drop r.1).take (r.2 - r.1))
      = splitSizes sizes idxs := by
    have := trace2_chunks sizes idxs 0
    simpa [group_ranges] using this
  rw [buildTable, h1, buildTable_go (group_ranges sizes) idxs 0 [], h2]

theorem pushAt_length (x : α) :
    ∀ (i : Nat) (l : List (List α)), (pushAt i x l).length = l.length := by
  intro i l
  induction l generalizing i with
  | nil => simp [pushAt]
  | cons g gs ih =>
    cases i with
    | zero => rfl
    | succ j => simp [pushAt, ih j]

theorem pushAt_getD_self (x : α) :
    ∀ (i : Nat) (l : List (List α)), i < l.length →
      (pushAt i x l).getD i [] = l.getD i [] ++ [x] := by
  intro i l
  induction l generalizing i with
  | nil => intro h; simp at h
  | cons g gs ih =>
    intro h
    cases i with
    | zero => rfl
    | succ j =>
      simp only [pushAt, List.getD_cons_succ]
      exact ih j (by simpa using h)

theorem pushAt_getD_ne (x : α) :
    ∀ (i j : Nat), j ≠ i → ∀ (l : List (List α)),
      (pushAt i x l).getD j [] = l.getD j [] := by
  intro i j hne l
  induction l generalizing i j with
  | nil => simp [pushAt]
  | cons g gs ih =>
    cases i with
    | zero =>
      cases j with
      | zero => exact absurd rfl hne
      | succ j2 => rfl
    | succ i2 =>
      cases j with
      | zero => rfl
      | succ j2 =>
        simp only [pushAt, List.getD_cons_succ]
        exact ih i2 j2 (fun h => hne (by omega))

theorem foldl_push_length (f : Nat × Nat → α) (table : List (Nat × Nat)) :
    ∀ (rs : List (List α)),
      (table.foldl (fun rs p => pushAt p.2 (f p) rs) rs).length = rs.length := by
  induction table with
  | nil => intro rs; rfl
  | cons p ps ih =>
    intro rs
    simp only [List.foldl_cons]
    rw [ih, pushAt_length]

theorem foldl_push_getD (f : Nat × Nat → α) (table : List (Nat × Nat)) :
    ∀ (rs : List (List α)) (i : Nat), i < rs.length →
      (table.foldl (fun rs p => pushAt p.2 (f p) rs) rs).getD i []
        = rs.getD i [] ++ (table.filter (fun p => p.2 == i)).map f := by
  induction table with
  | nil => intro rs i _; simp
  | cons p ps ih =>
    intro rs i hi
    rw [List.foldl_cons, ih (pushAt p.2 (f p) rs) i (by rw [pushAt_length]; exact hi),
      List.filter_cons]
    by_cases he : p.2 = i
    · subst he
      rw [pushAt_getD_self (f p) p.2 rs hi]
      simp [List.append_assoc]
    · rw [pushAt_getD_ne (f p) p.2 i (fun h => he h.symm) rs]
      simp [he]

theorem walkTable_cons (k g : Nat) (rest : List (Nat × Nat)) (prev : Int)
    (rs : List (List α)) (rem : List α) :
    walkTable prev rs rem ((k, g) :: rest)
      = match rem.drop (((k : Int) - prev).toNat - 1) with
        | [] => none
        | x :: rem1 => walkTable (k : Int) (pushAt g x rs) rem1 rest := rfl

theorem walkTable_cons_step (k g : Nat) (rest : List (Nat × Nat)) (prev : Int)
    (rs : List (List α)) (rem : List α) (x : α) (rem1 : List α)
    (h : rem.drop (((k : Int) - prev).toNat - 1) = x :: rem1) :
    walkTable prev rs rem ((k, g) :: rest)
      = walkTable (k : Int) (pushAt g x rs) rem1 rest := by
  rw [walkTable_cons, h]

theorem walkTable_eq (samples : List α) (d : α) :
    ∀ (table : List (Nat × Nat)) (prev : Int) (rs : List (List α)),
      KSorted table → (∀ p ∈ table, prev < (p.1 : Int)) →
      (∀ p ∈ table, p.1 < samples.length) → -1 ≤ prev →
      walkTable prev rs (samples.drop (prev + 1).toNat) table
        = some (table.foldl (fun rs p => pushAt p.2 (samples.getD p.1 d) rs) rs) := by
  intro table
  induction table with
  | nil => intro prev rs _ _ _ _; rfl
  | cons p rest ih =>
    rcases p with ⟨k, g⟩
    intro prev rs hsort hgt hbd hprev
    have hk : k < samples.length := hbd _ (List.mem_cons_self _ _)
    have hpk : prev < (k : Int) := hgt _ (List.mem_cons_self _ _)
    have hdrop1 : (samples.drop (prev + 1).toNat).drop (((k : Int) - prev).toNat - 1)
        = samples[k] :: samples.drop (k + 1) := by
      rw [List.drop_drop]
      have harith : (prev + 1).toNat + (((k : Int) - prev).toNat - 1) = k := by omega
      rw [harith]
      exact List.drop_eq_getElem_cons hk
    rw [walkTable_cons_step k g rest prev rs _ _ _ hdrop1]
    have hrest : samples.drop (k + 1) = samples.drop (((k : Int) + 1).toNat) := by
      have ht : ((k : Int) + 1).toNat = k + 1 := by omega
      rw [ht]
    rw [hrest]
    rw [ih (k : Int) (pushAt g samples[k] rs)
      (List.pairwise_cons.mp hsort).2
      (fun q hq => by exact_mod_cast (List.pairwise_cons.mp hsort).1 q hq)
      (fun q hq => hbd q (List.mem_cons_of_mem _ hq))
      (by omega)]
    rw [List.foldl_cons]
    have hgd : samples.getD k d = samples[k] := List.getD_eq_getElem samples d hk
    simp only [hgd]

theorem sort_if_perm (b : Bool) (c : List Nat) : List.Perm (sort_if b c) c := by
  cases b with
  | false => exact List.Perm.refl _
  | true => exact List.perm_insertionSort _ c

theorem mem_sort_if {b : Bool} {c : List Nat} {j : Nat} (h : j ∈ sort_if b c) : j ∈ c :=
  (sort_if_perm b c).subset h

theorem sort_if_length (b : Bool) (c : List Nat) : (sort_if b c).length = c.length :=
  (sort_if_perm b c).length_eq

theorem map_nil_getD (sizes : List Nat) (i : Nat) :
    (sizes.map (fun _ => ([] : List α))).getD i [] = [] := by
  induction sizes generalizing i with
  | nil => rfl
  | cons s ss ih =>
    cases i with
    | zero => rfl
    | succ j => exact ih j

/-- The heart of the `divide_by_size` correctness: the table walk produces
exactly the order-stable groups.  `d` is any element of the type (needed
only to state intermediate folds; the result does not depend on it). -/
theorem walk_core_d (samples : List α) (d : α) (sizes : List Nat) (idxs : List Nat)
    (hlen : idxs.length = sizes.sum) (hnd : idxs.Nodup)
    (hbd : ∀ i ∈ idxs, i < samples.length) :
    walkTable (-1) (sizes.map fun _ => ([] : List α)) samples
        (buildTable idxs (group_ranges sizes))
      = some (stableGroups samples sizes idxs) := by
  have hkeys : (pairsFrom 0 (splitSizes sizes idxs)).map Prod.fst = idxs := by
    rw [pairsFrom_map_fst (splitSizes sizes idxs) 0, splitSizes_flatten, ← hlen,
      List.take_length]
  have hnd2 : ((pairsFrom 0 (splitSizes sizes idxs)).map Prod.fst
      ++ ([] : List (Nat × Nat)).map Prod.fst).Nodup := by
    simpa [hkeys] using hnd
  obtain ⟨hsortT, hpermT⟩ :=
    foldl_insertBT (pairsFrom 0 (splitSizes sizes idxs)) [] List.Pairwise.nil hnd2
  rw [List.append_nil] at hpermT
  rw [buildTable_eq idxs sizes]
  have hmemkeys : ∀ p ∈ (pairsFrom 0 (splitSizes sizes idxs)).foldl
      (fun t p => insertBT p.1 p.2 t) [], p.1 ∈ idxs := by
    intro p hp
    rw [← hkeys]
    exact List.mem_map_of_mem Prod.fst (hpermT.subset hp)
  have hbdT : ∀ p ∈ (pairsFrom 0 (splitSizes sizes idxs)).foldl
      (fun t p => insertBT p.1 p.2 t) [], p.1 < samples.length :=
    fun p hp => hbd _ (hmemkeys p hp)
  have hwalk := walkTable_eq samples d
    ((pairsFrom 0 (splitSizes sizes idxs)).foldl (fun t p => insertBT p.1 p.2 t) [])
    (-1) (sizes.map fun _ => ([] : List α)) hsortT
    (fun p _ => by omega) hbdT (le_refl _)
  have hz : ((-1 : Int) + 1).toNat = 0 := rfl
  rw [hz, List.drop_zero] at hwalk
  rw [hwalk]
  refine congrArg some ?_
  -- the folded result equals the stable groups, shown entrywise
  have hlen1 : (((pairsFrom 0 (splitSizes sizes idxs)).foldl
      (fun t p => insertBT p.1 p.2 t) []).foldl
        (fun rs p => pushAt p.2 (samples.getD p.1 d) rs)
        (sizes.map fun _ => ([] : List α))).length = sizes.length := by
    rw [foldl_push_length, List.length_map]
  have hlen2 : (stableGroups samples sizes idxs).length = sizes.length := by
    simp only [stableGroups]
    rw [List.length_map, splitSizes_length]
  refine List.ext_getElem (by rw [hlen1, hlen2]) ?_
  intro i hi1 hi2
  have hisz : i < sizes.length := by rwa [hlen1] at hi1
  have hic : i < (splitSizes sizes idxs).length := by rwa [splitSizes_length]
  have hrs0 : i < (sizes.map fun _ => ([] : List α)).length := by
    rwa [List.length_map]
  have hL : (((pairsFrom 0 (splitSizes sizes idxs)).foldl
      (fun t p => insertBT p.1 p.2 t) []).foldl
        (fun rs p => pushAt p.2 (samples.getD p.1 d) rs)
        (sizes.map fun _ => ([] : List α))).getD i []
      = (((pairsFrom 0 (splitSizes sizes idxs)).foldl
          (fun t p => insertBT p.1 p.2 t) []).filter (fun p => p.2 == i)).map
            (fun p => samples.getD p.1 d) := by
    rw [foldl_push_getD _ _ _ i hrs0, map_nil_getD, List.nil_append]
  have hfil : List.Perm
      ((((pairsFrom 0 (splitSizes sizes idxs)).foldl
          (fun t p => insertBT p.1 p.2 t) []).filter (fun p => p.2 == i)))
      (((splitSizes sizes idxs).getD i []).map (fun k => (k, i))) := by
    have h1 := hpermT.filter (fun p => p.2 == i)
    rw [pairsFrom_filter_eq (splitSizes sizes idxs) 0 i (Nat.zero_le i)
      (by rwa [Nat.sub_zero]), Nat.sub_zero] at h1
    exact h1
  have hfils : (((pairsFrom 0 (splitSizes sizes idxs)).foldl
      (fun t p => insertBT p.1 p.2 t) []).filter (fun p => p.2 == i)).Pairwise
        (fun p q => p.1 < q.1) :=
    hsortT.sublist (List.filter_sublist _)
  have hsnd : ∀ p ∈ ((pairsFrom 0 (splitSizes sizes idxs)).foldl
      (fun t p => insertBT p.1 p.2 t) []).filter (fun p => p.2 == i), p.2 = i := by
    intro p hp
    exact beq_iff_eq.mp (List.mem_filter.mp hp).2
  have hsubl : List.Sublist ((splitSizes sizes idxs).getD i []) idxs := by
    rw [List.getD_eq_getElem _ [] hic]
    exact splitSizes_sublist sizes idxs _ (List.getElem_mem hic)
  have hchnd : ((splitSizes sizes idxs).getD i []).Nodup := List.Nodup.sublist hsubl hnd
  have hKperm : List.Perm
      ((((pairsFrom 0 (splitSizes sizes idxs)).foldl
          (fun t p => insertBT p.1 p.2 t) []).filter (fun p => p.2 == i)).map Prod.fst)
      ((splitSizes sizes idxs).getD i []) := by
    have h2 := hfil.map Prod.fst
    rw [List.map_map] at h2
    have h3 : (Prod.fst ∘ fun k => ((k, i) : Nat × Nat)) = fun k => k := rfl
    rwa [h3, List.map_id'] at h2
  have hKsorted : ((((pairsFrom 0 (splitSizes sizes idxs)).foldl
      (fun t p => insertBT p.1 p.2 t) []).filter (fun p => p.2 == i)).map
        Prod.fst).Pairwise (· < ·) :=
    List.pairwise_map.mpr hfils
  have hSperm : List.Perm
      (((splitSizes sizes idxs).getD i []).insertionSort (· ≤ ·))
      ((splitSizes sizes idxs).getD i []) := List.perm_insertionSort _ _
  have hKeq : (((pairsFrom 0 (splitSizes sizes idxs)).foldl
      (fun t p => insertBT p.1 p.2 t) []).filter (fun p => p.2 == i)).map Prod.fst
      = ((splitSizes sizes idxs).getD i []).insertionSort (· ≤ ·) :=
    List.eq_of_perm_of_sorted (hKperm.trans hSperm.symm)
      (hKsorted.imp le_of_lt) (List.sorted_insertionSort _ _)
  have hbdS : ∀ j ∈ ((splitSizes sizes idxs).getD i []).insertionSort (· ≤ ·),
      j < samples.length :=
    fun j hj => hbd j (hsubl.subset (hSperm.subset hj))
  rw [← List.getD_eq_getElem _ [] hi1, ← List.getD_eq_getElem _ [] hi2, hL,
    snd_const_map_fst hsnd, hKeq, List.map_map]
  have hcomp : ((fun p => samples.getD p.1 d) ∘ fun k => ((k, i) : Nat × Nat))
      = fun j => samples.getD j d := rfl
  rw [hcomp, map_getD_eq_filterMap samples d _ hbdS]
  have hi2b : i < ((splitSizes sizes idxs).map
      (fun c => (c.insertionSort (· ≤ ·)).filterMap (fun j => samples[j]?))).length := by
    rwa [List.length_map]
  simp only [stableGroups]
  rw [List.getD_eq_getElem _ [] hi2b, List.getElem_map, ← List.getD_eq_getElem _ [] hic]

/-- `walk_core_d` without the default element: the nonempty case supplies the
head, the empty case is degenerate. -/
theorem walk_core (samples : List α) (sizes : List Nat) (idxs : List Nat)
    (hlen : idxs.length = sizes.sum) (hnd : idxs.Nodup)
    (hbd : ∀ i ∈ idxs, i < samples.length) :
    walkTable (-1) (sizes.map fun _ => ([] : List α)) samples
        (buildTable idxs (group_ranges sizes))
      = some (stableGroups samples sizes idxs) := by
  cases samples with
  | cons a samp => exact walk_core_d (a :: samp) a sizes idxs hlen hnd hbd
  | nil =>
    have hidx : idxs = [] := by
      cases idxs with
      | nil => rfl
      | cons i is => exact absurd (hbd i (List.mem_cons_self _ _)) (by simp)
    subst hidx
    have hpe : pairsFrom 0 (splitSizes sizes ([] : List Nat)) = [] := by
      have h3 := pairsFrom_map_fst (splitSizes sizes ([] : List Nat)) 0
      rw [splitSizes_flatten] at h3
      simp only [List.take_nil] at h3
      exact List.map_eq_nil_iff.mp h3
    have h1 : buildTable [] (group_ranges sizes) = [] := by
      rw [buildTable_eq, hpe]
      rfl
    rw [h1]
    have h2 : stableGroups ([] : List α) sizes [] = sizes.map fun _ => [] := by
      simp only [stableGroups, splitSizes_nil_right, List.map_map]
      rfl
    rw [h2]
    rfl

/-- `divide_by_size` in stable mode: the sampled buffer is drawn once and the
result is the list of stable groups. -/
theorem divide_by_size_stable {σ : Type} (m : RngModel σ) (hok : SampleOk m)
    (samples : List α) (sizes : List Nat) (s : σ) (hle : sizes.sum ≤ samples.length) :
    divide_by_size m true samples sizes s
      = (some (stableGroups samples sizes (m.sample s samples.length sizes.sum).1),
         (m.sample s samples.length sizes.sum).2) := by
  obtain ⟨hlen, hnd, hbd⟩ := hok s samples.length sizes.sum hle
  simp only [divide_by_size, if_neg (not_lt.mpr hle)]
  rw [walk_core samples sizes _ hlen hnd hbd]
  rfl

/-- `divide_by_size` in non-stable mode: the stable groups, each shuffled in
order with the random source threaded through. -/
theorem divide_by_size_unstable {σ : Type} (m : RngModel σ) (hok : SampleOk m)
    (samples : List α) (sizes : List Nat) (s : σ) (hle : sizes.sum ≤ samples.length) :
    divide_by_size m false samples sizes s
      = (some (shuffleGroups m (m.sample s samples.length sizes.sum).2
            (stableGroups samples sizes (m.sample s samples.length sizes.sum).1)).1,
         (shuffleGroups m (m.sample s samples.length sizes.sum).2
            (stableGroups samples sizes (m.sample s samples.length sizes.sum).1)).2) := by
  obtain ⟨hlen, hnd, hbd⟩ := hok s samples.length sizes.sum hle
  simp only [divide_by_size, if_neg (not_lt.mpr hle)]
  rw [walk_core samples sizes _ hlen hnd hbd]
  rfl

/-- The slice-path group loop over the ranges of `trace2`, characterised as
chunking followed by optional sorting and index lookup. -/
theorem sliceLoop_eq (samples : List α) (stable : Bool) (idxs : List Nat)
    (hbd : ∀ i ∈ idxs, i < samples.length) (sizes : List Nat) :
    ∀ t : Nat, sliceGroupsLoop samples stable idxs
        (trace2 (fun total size => total + size) t sizes)
      = some ((splitSizes sizes (idxs.drop t)).map
          (fun c => (sort_if stable c).filterMap (fun j => samples[j]?))) := by
  induction sizes with
  | nil => intro t; rfl
  | cons sz ss ih =>
    intro t
    have hchunkbd : ∀ j ∈ sort_if stable ((idxs.drop t).take ((t + sz) - t)),
        j < samples.length := by
      intro j hj
      refine hbd j ?_
      exact (List.drop_sublist t idxs).subset
        ((List.take_sublist _ _).subset (mem_sort_if hj))
    simp only [trace2, sliceGroupsLoop]
    rw [from_idxs_eq samples _ hchunkbd, ih (t + sz)]
    simp only [splitSizes, List.map_cons, Nat.add_sub_cancel_left, List.drop_drop]

/-- `divide_slice_by_size`, characterised for both stability modes. -/
theorem divide_slice_by_size_eq {σ : Type} (m : RngModel σ) (hok : SampleOk m)
    (stable : Bool) (samples : List α) (sizes : List Nat) (s : σ)
    (hle : sizes.sum ≤ samples.length) :
    divide_slice_by_size m stable samples sizes s
      = (some ((splitSizes sizes (m.sample s samples.length sizes.sum).1).map
            (fun c => (sort_if stable c).filterMap (fun j => samples[j]?))),
         (m.sample s samples.length sizes.sum).2) := by
  obtain ⟨hlen, hnd, hbd⟩ := hok s samples.length sizes.sum hle
  simp only [divide_slice_by_size, if_neg (not_lt.mpr hle), group_ranges]
  rw [sliceLoop_eq samples stable _ hbd sizes 0, List.drop_zero]

/-- In stable mode the slice-path groups are the stable groups. -/
theorem sort_if_true_groups (samples : List α) (sizes idxs : List Nat) :
    (splitSizes sizes idxs).map
        (fun c => (sort_if true c).filterMap (fun j => samples[j]?))
      = stableGroups samples sizes idxs := rfl

/-- In non-stable mode the slice-path groups are the unsorted chunks. -/
theorem sort_if_false_groups (samples : List α) (sizes idxs : List Nat) :
    (splitSizes sizes idxs).map
        (fun c => (sort_if false c).filterMap (fun j => samples[j]?))
      = plainGroups samples sizes idxs := rfl

/-- Shuffling the groups preserves each group's length and permutes the
concatenation. -/
theorem shuffleGroups_facts {σ : Type} (m : RngModel σ) (hsh : ShuffleOk m) :
    ∀ (G : List (List α)) (s : σ),
      ((shuffleGroups m s G).1.map List.length = G.map List.length) ∧
        List.Perm (shuffleGroups m s G).1.flatten G.flatten := by
  intro G
  induction G with
  | nil => intro s; exact ⟨rfl, List.Perm.refl _⟩
  | cons g gs ih =>
    intro s
    obtain ⟨h1, h2⟩ := ih (m.shuffle s g).2
    refine ⟨?_, ?_⟩
    · simp only [shuffleGroups, List.map_cons, h1]
      rw [(hsh α s g).length_eq]
    · simp only [shuffleGroups, List.flatten_cons]
      exact (hsh α s g).append h2

/-- The groups of either path have exactly the requested lengths. -/
theorem groupsShape_map_length (samples : List α) (stable : Bool)
    (sizes idxs : List Nat) (hlen : idxs.length = sizes.sum)
    (hbd : ∀ i ∈ idxs, i < samples.length) :
    ((splitSizes sizes idxs).map
        (fun c => (sort_if stable c).filterMap (fun j => samples[j]?))).map
          List.length = sizes := by
  rw [List.map_map]
  have hcongr : ∀ c ∈ splitSizes sizes idxs,
      (List.length ∘ fun c => (sort_if stable c).filterMap (fun j => samples[j]?)) c
        = c.length := by
    intro c hc
    have hsubl := splitSizes_sublist sizes idxs c hc
    have hb2 : ∀ j ∈ sort_if stable c, j < samples.length :=
      fun j hj => hbd j (hsubl.subset (mem_sort_if hj))
    show ((sort_if stable c).filterMap (fun j => samples[j]?)).length = c.length
    rw [filterMap_getElem_length samples _ hb2, sort_if_length]
  rw [List.map_congr_left hcongr]
  exact splitSizes_map_length sizes idxs (hlen ▸ le_refl idxs.length)

/-- The concatenation of the groups of either path is a sub-permutation of
the input. -/
theorem groupsShape_flatten_subperm (samples : List α) (stable : Bool)
    (sizes idxs : List Nat) (hlen : idxs.length = sizes.sum) (hnd : idxs.Nodup)
    (hbd : ∀ i ∈ idxs, i < samples.length) :
    List.Subperm ((splitSizes sizes idxs).map
        (fun c => (sort_if stable c).filterMap (fun j => samples[j]?))).flatten
      samples := by
  have h1 : List.Perm
      ((splitSizes sizes idxs).map
        (fun c => (sort_if stable c).filterMap (fun j => samples[j]?))).flatten
      ((splitSizes sizes idxs).map
        (fun c => c.filterMap (fun j => samples[j]?))).flatten :=
    flatten_map_perm _ _ _
      (fun c _ => (sort_if_perm stable c).filterMap (fun j => samples[j]?))
  have h2 : ((splitSizes sizes idxs).map
      (fun c => c.filterMap (fun j => samples[j]?))).flatten
      = idxs.filterMap (fun j => samples[j]?) := by
    rw [filterMap_flatten_eq, splitSizes_flatten, ← hlen, List.take_length]
  have h3 : List.Subperm (idxs.filterMap (fun j => samples[j]?)) samples :=
    filterMap_getElem_subperm samples idxs hnd hbd
  exact (h1.trans (h2 ▸ List.Perm.refl _)).subperm.trans h3

/-- The Tail pipeline (round each ratio, accumulate with clamping, take
differences) is the recursion of `tail_amended`. -/
theorem tail_go (len : Nat) (ratios : List F64) :
    ∀ prev : Nat,
      diffL (fun c p => c - p) prev
        (traceL (fun s x => min (s + x) len) prev
          (ratios.map (fun x => F64.toUsize (F64.fround (F64.mul x (usizeToF64 len))))))
      = tail_amended len prev ratios := by
  induction ratios with
  | nil => intro prev; rfl
  | cons r rs ih =>
    intro prev
    simp only [List.map_cons, traceL, diffL, tail_amended]
    exact congrArg _ (ih _)

theorem tail_amended_sum (len : Nat) (ratios : List F64) :
    ∀ prev : Nat, prev ≤ len → prev + (tail_amended len prev ratios).sum ≤ len := by
  induction ratios with
  | nil => intro prev h; simpa using h
  | cons r rs ih =>
    intro prev h
    simp only [tail_amended, List.sum_cons]
    have h1 : min (prev + F64.toUsize (F64.fround (F64.mul r (usizeToF64 len)))) len
        ≤ len := min_le_right _ _
    have h2 : prev ≤ min (prev + F64.toUsize (F64.fround (F64.mul r (usizeToF64 len)))) len :=
      le_min (Nat.le_add_right _ _) h
    have h3 := ih (min (prev + F64.toUsize (F64.fround (F64.mul r (usizeToF64 len)))) len) h1
    omega

theorem listRng_sample_ok : SampleOk listRng := by
  intro s n k hk
  refine ⟨List.length_range k, List.nodup_range k, ?_⟩
  intro i hi
  exact lt_of_lt_of_le (List.mem_range.mp hi) hk

theorem listRng_sample_zero : SampleZero listRng := fun _ _ => rfl

theorem listRng_shuffle_ok : ShuffleOk listRng := fun _ _ l => List.Perm.refl l

/-- Claim C3: ratio-to-size resolution at n = 10 yields exactly these sizes:
ratios [1/4, 1/4, 1/4] under Floor give [2, 2, 2]; ratios
[1/4, 1/4, 1/4, 1/4] under Tail give [3, 3, 3, 1]; ratios [1/3, 1/3, 1/3]
under Each give [3, 4, 3]. -/
theorem C3_rounding_cases :
    ratios_to_sizes SizeRounding.Floor [ratioQuarter, ratioQuarter, ratioQuarter] 10
        = [2, 2, 2]
    ∧ ratios_to_sizes SizeRounding.Tail
        [ratioQuarter, ratioQuarter, ratioQuarter, ratioQuarter] 10 = [3, 3, 3, 1]
    ∧ ratios_to_sizes SizeRounding.Each [ratioThird, ratioThird, ratioThird] 10
        = [3, 4, 3] := by
  decide

/-- Counterexample to claim C2: at the valid ratio vector
[1/4, 1/4, 1/4, 1/4] and n = 10 the code's Tail policy gives [3, 3, 3, 1],
while the claimed formula (differences of the rounded *cumulative* sums,
clamped) gives [3, 2, 3, 2]; so size resolution does not round the
cumulative ratio sums. -/
theorem C2_tail_cex :
    ([ratioQuarter, ratioQuarter, ratioQuarter, ratioQuarter].all check_ratio = true
      ∧ F64.fgt (fsum [ratioQuarter, ratioQuarter, ratioQuarter, ratioQuarter])
          (F64.num qone) = false)
    ∧ tailSizes [ratioQuarter, ratioQuarter, ratioQuarter, ratioQuarter] 10 = [3, 3, 3, 1]
    ∧ tail_spec_cumulative [ratioQuarter, ratioQuarter, ratioQuarter, ratioQuarter] 10
        = [3, 2, 3, 2]
    ∧ tailSizes [ratioQuarter, ratioQuarter, ratioQuarter, ratioQuarter] 10
        ≠ tail_spec_cumulative [ratioQuarter, ratioQuarter, ratioQuarter, ratioQuarter] 10 := by
  decide

/-- Claim C2 (amended): under the Tail rounding policy, for every ratios
vector and every length n, the resolved sizes equal the successive
differences of boundary points p[i] = min(p[i-1] + round(ratios[i] * n), n)
with p[-1] = 0: each ratio is rounded individually and the rounded sizes
are accumulated with clamping at n. -/
theorem C2_tail_individual_rounding (ratios : List F64) (len : Nat) :
    tailSizes ratios len = tail_amended len 0 ratios :=
  tail_go len ratios 0

/-- Counterexample to claim C5: the single-ratio vector [1.0] is valid
(1.0 passes `check_ratio` and sums to 1.0), yet at n = 2^53 + 3 (where
`n as f64` rounds up to 2^53 + 4) both the Floor and the Each policies
resolve to a total of 2^53 + 4 > n. -/
theorem C5_sum_cex :
    ([F64.lit 1 1].all check_ratio = true
      ∧ F64.fgt (fsum [F64.lit 1 1]) (F64.num qone) = false)
    ∧ (floorSizes [F64.lit 1 1] (2 ^ 53 + 3)).sum = 2 ^ 53 + 4
    ∧ (eachSizes [F64.lit 1 1] (2 ^ 53 + 3)).sum = 2 ^ 53 + 4
    ∧ ¬ (floorSizes [F64.lit 1 1] (2 ^ 53 + 3)).sum ≤ 2 ^ 53 + 3
    ∧ ¬ (eachSizes [F64.lit 1 1] (2 ^ 53 + 3)).sum ≤ 2 ^ 53 + 3 := by
  decide

/-- Claim C5 (amended): for every ratios vector and every length n, the
sizes produced by ratio-to-size resolution under the Tail rounding policy
satisfy sum(sizes) ≤ n (Floor and Each can exceed n for n ≥ 2^53). -/
theorem C5_tail_sum_le (ratios : List F64) (len : Nat) :
    (tailSizes ratios len).sum ≤ len := by
  have he : tailSizes ratios len = tail_amended len 0 ratios := tail_go len ratios 0
  have h := tail_amended_sum len ratios 0 (Nat.zero_le len)
  rw [he]
  omega

/-- Claim C9: a freshly constructed RandomGrouping (via new or Default)
reports stable() = true and rounding() = SizeRounding::Floor. -/
theorem C9_defaults {σ : Type} (mkRng : Nat → σ) :
    (RandomGrouping.new mkRng).stable = true
    ∧ (RandomGrouping.new mkRng).rounding = SizeRounding.Floor
    ∧ (RandomGrouping.default mkRng).stable = true
    ∧ (RandomGrouping.default mkRng).rounding = SizeRounding.Floor :=
  ⟨rfl, rfl, rfl, rfl⟩

/-- Claim C7: two RandomGrouping sessions constructed with the same explicit
seed (from_seed with equal seed values, or both via new/default), given the
same inputs and the same sequence of calls, produce identical group results
on every call. -/
theorem C7_determinism {σ : Type} (m : RngModel σ) {α : Type} (mkRng : Nat → σ)
    (seed1 seed2 : Nat) (calls : List (Call α)) (h : seed1 = seed2) :
    runCalls m (RandomGrouping.from_seed mkRng seed1) calls
      = runCalls m (RandomGrouping.from_seed mkRng seed2) calls
    ∧ RandomGrouping.new mkRng = RandomGrouping.default mkRng
    ∧ runCalls m (RandomGrouping.new mkRng) calls
      = runCalls m (RandomGrouping.default mkRng) calls := by
  subst h
  exact ⟨rfl, rfl, rfl⟩

/-- Witness for C7 at a concrete seed and call list. -/
theorem C7_determinism_witness :
    (5 = 5)
    ∧ (runCalls listRng (RandomGrouping.from_seed (fun _ => ()) 5)
          [Call.bySize [10, 20, 30] [1, 2]]
        = runCalls listRng (RandomGrouping.from_seed (fun _ => ()) 5)
          [Call.bySize [10, 20, 30] [1, 2]]
      ∧ RandomGrouping.new (fun _ => ()) = RandomGrouping.default (fun _ => ())
      ∧ runCalls listRng (RandomGrouping.new (fun _ => ()))
          [Call.bySize [10, 20, 30] [1, 2]]
        = runCalls listRng (RandomGrouping.default (fun _ => ()))
          [Call.bySize [10, 20, 30] [1, 2]]) :=
  ⟨rfl, C7_determinism listRng (fun _ => ()) 5 5 [Call.bySize [10, 20, 30] [1, 2]] rfl⟩

/-- Claim C8: for every samples collection, calling divide_by_size or
divide_slice_by_size with an empty sizes vector returns an empty list of
groups and leaves the random source's state unchanged (under the interface
fact that sampling zero elements does not touch the source). -/
theorem C8_empty_sizes {σ : Type} (m : RngModel σ) (h0 : SampleZero m)
    (stable : Bool) {α : Type} (samples : List α) (s : σ) :
    divide_by_size m stable samples [] s = (some [], s)
    ∧ divide_slice_by_size m stable samples [] s = (some [], s) := by
  constructor
  · simp only [divide_by_size, List.sum_nil]
    rw [if_neg (Nat.not_lt_zero _), h0 s samples.length]
    cases stable with
    | true => rfl
    | false => rfl
  · simp only [divide_slice_by_size, List.sum_nil]
    rw [if_neg (Nat.not_lt_zero _), h0 s samples.length]
    rfl

/-- Witness for C8 at a concrete model and input. -/
theorem C8_empty_sizes_witness :
    divide_by_size listRng true [10, 20, 30] [] () = (some [], ())
    ∧ divide_slice_by_size listRng true [10, 20, 30] [] () = (some [], ()) :=
  C8_empty_sizes listRng listRng_sample_zero true [10, 20, 30] ()

/-- Claim C4: every caller-contract violation (oversubscribed sizes, a NaN,
infinite or negative ratio, a ratio sum above 1.0, or valid ratios whose
resolved sizes oversubscribe) makes the call fail before any randomness is
consumed and without partial groups: the step returns no result and the
session (in particular the random source state) is unchanged, so a later
call behaves as if the failed call never happened. -/
theorem C4_contract_violations {σ : Type} (m : RngModel σ) {α : Type}
    (rg : RandomGrouping σ) (samples : List α) (sizes : List Nat)
    (ratios : List F64) :
    (samples.length < sizes.sum →
        step m rg (Call.bySize samples sizes) = (none, rg)
          ∧ step m rg (Call.bySliceSize samples sizes) = (none, rg))
    ∧ ((ratios.all check_ratio = false
          ∨ F64.fgt (fsum ratios) (F64.num qone) = true) →
        step m rg (Call.byRatio samples ratios) = (none, rg)
          ∧ step m rg (Call.bySliceRatio samples ratios) = (none, rg))
    ∧ (samples.length < (ratios_to_sizes rg.rounding ratios samples.length).sum →
        step m rg (Call.byRatio samples ratios) = (none, rg)
          ∧ step m rg (Call.bySliceRatio samples ratios) = (none, rg))
    ∧ (∀ c c2 : Call α, step m rg c = (none, rg) →
        runCalls m rg [c, c2] = none :: runCalls m rg [c2]) := by
  rcases rg with ⟨st, ro, rs⟩
  refine ⟨?_, ?_, ?_, ?_⟩
  · intro hlt
    constructor
    · simp only [step, divide_by_size, if_pos hlt]
    · simp only [step, divide_slice_by_size, if_pos hlt]
  · intro hbad
    rcases hbad with hbad | hbad
    · constructor
      · simp only [step, divide_by_ratio, hbad, Bool.not_false, if_true]
      · simp only [step, divide_slice_by_ratio, hbad, Bool.not_false, if_true]
    · by_cases hall : ratios.all check_ratio
      · constructor
        · simp only [step, divide_by_ratio, hall, Bool.not_true, Bool.false_eq_true,
            if_false, hbad, if_true]
        · simp only [step, divide_slice_by_ratio, hall, Bool.not_true, Bool.false_eq_true,
            if_false, hbad, if_true]
      · have hfalse : ratios.all check_ratio = false := by
          simpa using hall
        constructor
        · simp only [step, divide_by_ratio, hfalse, Bool.not_false, if_true]
        · simp only [step, divide_slice_by_ratio, hfalse, Bool.not_false, if_true]
  · intro hlt
    by_cases hall : ratios.all check_ratio
    · by_cases hgt : F64.fgt (fsum ratios) (F64.num qone)
      · constructor
        · simp only [step, divide_by_ratio, hall, Bool.not_true, Bool.false_eq_true,
            if_false, hgt, if_true]
        · simp only [step, divide_slice_by_ratio, hall, Bool.not_true, Bool.false_eq_true,
            if_false, hgt, if_true]
      · have hgtf : F64.fgt (fsum ratios) (F64.num qone) = false := by simpa using hgt
        constructor
        · simp only [step, divide_by_ratio, hall, Bool.not_true, Bool.false_eq_true,
            if_false, hgtf, divide_by_size, if_pos hlt]
        · simp only [step, divide_slice_by_ratio, hall, Bool.not_true, Bool.false_eq_true,
            if_false, hgtf, divide_by_size, if_pos hlt]
    · have hfalse : ratios.all check_ratio = false := by simpa using hall
      constructor
      · simp only [step, divide_by_ratio, hfalse, Bool.not_false, if_true]
      · simp only [step, divide_slice_by_ratio, hfalse, Bool.not_false, if_true]
  · intro c c2 hfail
    simp only [runCalls, hfail]

/-- Witness for C4 at concrete invalid inputs. -/
theorem C4_contract_violations_witness :
    (([(10 : Nat), 20].length < [(5 : Nat)].sum)
      ∧ step listRng (RandomGrouping.new (fun _ => ()))
          (Call.bySize [(10 : Nat), 20] [5]) = (none, RandomGrouping.new (fun _ => ()))
      ∧ step listRng (RandomGrouping.new (fun _ => ()))
          (Call.bySliceSize [(10 : Nat), 20] [5]) = (none, RandomGrouping.new (fun _ => ())))
    ∧ (([F64.nan].all check_ratio = false
          ∨ F64.fgt (fsum [F64.nan]) (F64.num qone) = true)
      ∧ step listRng (RandomGrouping.new (fun _ => ()))
          (Call.byRatio [(10 : Nat), 20] [F64.nan]) = (none, RandomGrouping.new (fun _ => ()))
      ∧ step listRng (RandomGrouping.new (fun _ => ()))
          (Call.bySliceRatio [(10 : Nat), 20] [F64.nan])
            = (none, RandomGrouping.new (fun _ => ()))) := by
  refine ⟨⟨by decide, ?_⟩, ⟨by decide, ?_⟩⟩
  · exact (C4_contract_violations listRng (RandomGrouping.new (fun _ => ()))
      [(10 : Nat), 20] [5] [F64.nan]).1 (by decide)
  · exact (C4_contract_violations listRng (RandomGrouping.new (fun _ => ()))
      [(10 : Nat), 20] [5] [F64.nan]).2.1 (Or.inl (by decide))

/-- Claim C1: for every samples collection and sizes vector with
sum(sizes) ≤ samples length, each of divide_by_size and
divide_slice_by_size succeeds with exactly len(sizes) groups of the
requested lengths, and the concatenation of the groups is a
sub-permutation of the input (no input position is used twice, every group
element comes from the input). -/
theorem C1_partition_correct {σ : Type} (m : RngModel σ) (hok : SampleOk m)
    (hsh : ShuffleOk m) (stable : Bool) {α : Type} (samples : List α)
    (sizes : List Nat) (s : σ) (hle : sizes.sum ≤ samples.length) :
    (∃ groups s1, divide_by_size m stable samples sizes s = (some groups, s1)
        ∧ groups.map List.length = sizes
        ∧ List.Subperm groups.flatten samples)
    ∧ (∃ groups s1, divide_slice_by_size m stable samples sizes s = (some groups, s1)
        ∧ groups.map List.length = sizes
        ∧ List.Subperm groups.flatten samples) := by
  obtain ⟨hlen, hnd, hbd⟩ := hok s samples.length sizes.sum hle
  constructor
  · cases stable with
    | true =>
      refine ⟨_, _, divide_by_size_stable m hok samples sizes s hle, ?_, ?_⟩
      · rw [← sort_if_true_groups]
        exact groupsShape_map_length samples true sizes _ hlen hbd
      · rw [← sort_if_true_groups]
        exact groupsShape_flatten_subperm samples true sizes _ hlen hnd hbd
    | false =>
      refine ⟨_, _, divide_by_size_unstable m hok samples sizes s hle, ?_, ?_⟩
      · obtain ⟨hml, _⟩ := shuffleGroups_facts m hsh
          (stableGroups samples sizes (m.sample s samples.length sizes.sum).1)
          (m.sample s samples.length sizes.sum).2
        rw [hml, ← sort_if_true_groups]
        exact groupsShape_map_length samples true sizes _ hlen hbd
      · obtain ⟨_, hfp⟩ := shuffleGroups_facts m hsh
          (stableGroups samples sizes (m.sample s samples.length sizes.sum).1)
          (m.sample s samples.length sizes.sum).2
        refine hfp.subperm.trans ?_
        rw [← sort_if_true_groups]
        exact groupsShape_flatten_subperm samples true sizes _ hlen hnd hbd
  · refine ⟨_, _, divide_slice_by_size_eq m hok stable samples sizes s hle, ?_, ?_⟩
    · exact groupsShape_map_length samples stable sizes _ hlen hbd
    · exact groupsShape_flatten_subperm samples stable sizes _ hlen hnd hbd

/-- Witness for C1 at a concrete model and input. -/
theorem C1_partition_correct_witness :
    (([(1 : Nat), 2].sum ≤ [(10 : Nat), 20, 30, 40].length)
      ∧ ((∃ groups s1, divide_by_size listRng true [(10 : Nat), 20, 30, 40] [1, 2] ()
              = (some groups, s1)
            ∧ groups.map List.length = [1, 2]
            ∧ List.Subperm groups.flatten [(10 : Nat), 20, 30, 40])
        ∧ (∃ groups s1, divide_slice_by_size listRng true [(10 : Nat), 20, 30, 40] [1, 2] ()
              = (some groups, s1)
            ∧ groups.map List.length = [1, 2]
            ∧ List.Subperm groups.flatten [(10 : Nat), 20, 30, 40]))) :=
  ⟨by decide,
    C1_partition_correct listRng listRng_sample_ok listRng_shuffle_ok true
      [(10 : Nat), 20, 30, 40] [1, 2] () (by decide)⟩

/-- Claim C6: with stable = true, each group returned by divide_by_size and
divide_slice_by_size lists its elements at strictly increasing source
positions of the input. -/
theorem C6_stable_order {σ : Type} (m : RngModel σ) (hok : SampleOk m)
    {α : Type} (samples : List α) (sizes : List Nat) (s : σ)
    (hle : sizes.sum ≤ samples.length) :
    (∃ groups s1, divide_by_size m true samples sizes s = (some groups, s1)
        ∧ ∀ g ∈ groups, ∃ js : List Nat, js.Pairwise (· < ·)
            ∧ g = js.filterMap (fun j => samples[j]?))
    ∧ (∃ groups s1, divide_slice_by_size m true samples sizes s = (some groups, s1)
        ∧ ∀ g ∈ groups, ∃ js : List Nat, js.Pairwise (· < ·)
            ∧ g = js.filterMap (fun j => samples[j]?)) := by
  obtain ⟨hlen, hnd, hbd⟩ := hok s samples.length sizes.sum hle
  have key : ∀ g ∈ stableGroups samples sizes (m.sample s samples.length sizes.sum).1,
      ∃ js : List Nat, js.Pairwise (· < ·)
        ∧ g = js.filterMap (fun j => samples[j]?) := by
    intro g hg
    obtain ⟨c, hc, rfl⟩ := List.mem_map.mp hg
    refine ⟨c.insertionSort (· ≤ ·), ?_, rfl⟩
    have hnd2 : (c.insertionSort (· ≤ ·)).Nodup :=
      ((List.perm_insertionSort _ c).nodup_iff).mpr
        (List.Nodup.sublist (splitSizes_sublist sizes _ c hc) hnd)
    exact pairwise_lt_of_le_nodup (List.sorted_insertionSort _ _) hnd2
  constructor
  · exact ⟨_, _, divide_by_size_stable m hok samples sizes s hle, key⟩
  · refine ⟨_, _, divide_slice_by_size_eq m hok true samples sizes s hle, ?_⟩
    rw [sort_if_true_groups]
    exact key

/-- Witness for C6 at a concrete model and input. -/
theorem C6_stable_order_witness :
    (([(2 : Nat), 1].sum ≤ [(10 : Nat), 20, 30].length)
      ∧ ((∃ groups s1, divide_by_size listRng true [(10 : Nat), 20, 30] [2, 1] ()
              = (some groups, s1)
            ∧ ∀ g ∈ groups, ∃ js : List Nat, js.Pairwise (· < ·)
                ∧ g = js.filterMap (fun j => [(10 : Nat), 20, 30][j]?))
        ∧ (∃ groups s1, divide_slice_by_size listRng true [(10 : Nat), 20, 30] [2, 1] ()
              = (some groups, s1)
            ∧ ∀ g ∈ groups, ∃ js : List Nat, js.Pairwise (· < ·)
                ∧ g = js.filterMap (fun j => [(10 : Nat), 20, 30][j]?)))) :=
  ⟨by decide,
    C6_stable_order listRng listRng_sample_ok [(10 : Nat), 20, 30] [2, 1] () (by decide)⟩

/-- Claim C10: divide_slice_by_ratio delegates to the iterator-based
divide_by_size (second conjunct, for every stability mode); consequently,
for valid ratios and stable = true it returns exactly the same groups and
random-source state as resolving the ratios to sizes and calling
divide_slice_by_size from the same state (first conjunct). -/
theorem C10_slice_ratio_delegation {σ : Type} (m : RngModel σ) (hok : SampleOk m)
    (rounding : SizeRounding) {α : Type} (samples : List α) (ratios : List F64)
    (s : σ) (hval : ratios.all check_ratio = true)
    (hsum : F64.fgt (fsum ratios) (F64.num qone) = false) :
    divide_slice_by_ratio m true rounding samples ratios s
        = divide_slice_by_size m true samples
            (ratios_to_sizes rounding ratios samples.length) s
    ∧ ∀ stable : Bool,
        divide_slice_by_ratio m stable rounding samples ratios s
          = divide_by_size m stable samples
              (ratios_to_sizes rounding ratios samples.length) s := by
  have hdeleg : ∀ stable : Bool,
      divide_slice_by_ratio m stable rounding samples ratios s
        = divide_by_size m stable samples
            (ratios_to_sizes rounding ratios samples.length) s := by
    intro stable
    simp only [divide_slice_by_ratio, hval, Bool.not_true, Bool.false_eq_true,
      if_false, hsum]
  refine ⟨?_, hdeleg⟩
  rw [hdeleg true]
  by_cases hle : (ratios_to_sizes rounding ratios samples.length).sum ≤ samples.length
  · rw [divide_by_size_stable m hok samples _ s hle,
      divide_slice_by_size_eq m hok true samples _ s hle, sort_if_true_groups]
  · have hlt := not_le.mp hle
    simp only [divide_by_size, divide_slice_by_size, if_pos hlt]

/-- Witness for C10 at a concrete model and input. -/
theorem C10_slice_ratio_delegation_witness :
    (([F64.lit 3 10, F64.lit 2 10].all check_ratio = true)
      ∧ (F64.fgt (fsum [F64.lit 3 10, F64.lit 2 10]) (F64.num qone) = false)
      ∧ (divide_slice_by_ratio listRng true SizeRounding.Floor [(10 : Nat), 20, 30, 40]
            [F64.lit 3 10, F64.lit 2 10] ()
          = divide_slice_by_size listRng true [(10 : Nat), 20, 30, 40]
              (ratios_to_sizes SizeRounding.Floor [F64.lit 3 10, F64.lit 2 10] 4) ())) :=
  ⟨by decide, by decide,
    (C10_slice_ratio_delegation listRng listRng_sample_ok SizeRounding.Floor
      [(10 : Nat), 20, 30, 40] [F64.lit 3 10, F64.lit 2 10] () (by decide) (by decide)).1⟩
